import Mathlib

/-!
Verification development for the browser RAG client (`src/main.js`).

Strings are modelled as `List Char`; JavaScript numbers appearing in the
similarity code are modelled as real numbers, with `JsNum` adjoining the
IEEE special values that JavaScript arithmetic can produce.  Each
definition is a direct transcription of the corresponding JavaScript
function; the doc comment of every definition names its source.
-/

namespace RagClient

/-- JavaScript whitespace characters relevant to `String.prototype.trim`
for the ASCII text handled by this program. -/
def isJsSpace (c : Char) : Bool :=
  c = ' ' || c = '\n' || c = '\t' || c = '\r'

/-- Model of `String.prototype.trim`: strip leading and trailing whitespace. -/
def jsTrim (s : List Char) : List Char :=
  ((s.dropWhile isJsSpace).reverse.dropWhile isJsSpace).reverse

/-- Model of `String.prototype.substring(a, b)`: both indices are clamped to
the string bounds and swapped when out of order.  Callers pass natural
numbers that are already clamped at zero (JavaScript clamps negative
arguments to zero, which matches truncated subtraction on `Nat`). -/
def jsSubstring (s : List Char) (a b : Nat) : List Char :=
  (s.take (max a b)).drop (min a b)

/-- Model of `String.prototype.lastIndexOf(pat)`: the largest position at
which `pat` occurs as a contiguous sublist, `none` when absent (`-1` in
JavaScript). -/
def lastIndexOfSub (s pat : List Char) : Option Nat :=
  ((List.range s.length).filter (fun k => (s.drop k).take pat.length == pat)).getLast?

/-- The break-point search of `chunkText` (main.js lines 217–219): prefer the
latest ". " (plus one), else the latest newline, else the latest space. -/
def breakIdxOf (w : List Char) : Option Nat :=
  match lastIndexOfSub w ['.', ' '] with
  | some p => some (p + 1)
  | none =>
    match lastIndexOfSub w ['\n'] with
    | some p => some p
    | none => lastIndexOfSub w [' ']

/-- The cut point computed by one iteration of the `chunkText` loop starting
at cursor `i` (main.js lines 213–224), with the default `size = 600`.  When
the nominal end `i + 600` lies inside the text, a window
`text.substring(end - 100, end + 20)` is searched for a break and the end is
moved to `(end - 100) + breakIdx + 1` when one is found. -/
def chunkEnd (text : List Char) (i : Nat) : Nat :=
  if i + 600 < text.length then
    match breakIdxOf (jsSubstring text (i + 600 - 100) (i + 600 + 20)) with
    | some b => (i + 600 - 100) + b + 1
    | none => i + 600
  else i + 600

/-- The next cursor of the `chunkText` loop (main.js lines 227–231) with the
default `overlap = 100`: first `i = end - overlap` clamped at zero (truncated
subtraction), then the safety exit `if (end <= i + overlap && end < text.length)
i = end`, evaluated — as in the source — against the already-updated cursor. -/
def chunkNext (text : List Char) (i : Nat) : Nat :=
  if chunkEnd text i ≤ (chunkEnd text i - 100) + 100 ∧ chunkEnd text i < text.length
  then chunkEnd text i
  else chunkEnd text i - 100

/-- Lower bound on the cut point: every cut lies strictly beyond `i + 500`. -/
theorem chunkEnd_gt (text : List Char) (i : Nat) : i + 500 < chunkEnd text i := by
  unfold chunkEnd
  split
  · split <;> omega
  · omega

/-- The cursor strictly advances on every iteration of the `chunkText` loop. -/
theorem chunkNext_gt (text : List Char) (i : Nat) : i < chunkNext text i := by
  have h := chunkEnd_gt text i
  unfold chunkNext
  split <;> omega

/-- The `while (i < text.length)` loop of `chunkText` (main.js lines 212–232),
recording the source window `(i, end)` of each pushed fragment. -/
def chunkWindowsAux (text : List Char) (i : Nat) : List (Nat × Nat) :=
  if _h : i < text.length then
    (i, chunkEnd text i) :: chunkWindowsAux text (chunkNext text i)
  else []
termination_by text.length - i
decreasing_by
  have := chunkNext_gt text i
  omega

/-- The raw fragment windows produced by `chunkText` before trimming and
filtering. -/
def chunkRaw (text : List Char) : List (Nat × Nat) :=
  chunkWindowsAux text 0

/-- The fragment text obtained from a source window:
`text.substring(i, end).trim()` (main.js line 226). -/
def chunkFragment (text : List Char) (w : Nat × Nat) : List Char :=
  jsTrim (jsSubstring text w.1 w.2)

/-- Model of `chunkText(text)` at its only call site (default `size = 600`,
`overlap = 100`, main.js lines 208–236): trimmed fragments of the loop's
windows, keeping only those longer than 10 characters. -/
def chunkText (text : List Char) : List (List Char) :=
  ((chunkRaw text).map (chunkFragment text)).filter (fun c => 10 < c.length)

/-- The source windows of the fragments that survive the `length > 10`
post-filter of `chunkText`. -/
def keptWindows (text : List Char) : List (Nat × Nat) :=
  (chunkRaw text).filter (fun w => 10 < (chunkFragment text w).length)

/-- Trimming never lengthens a string. -/
theorem jsTrim_length_le (s : List Char) : (jsTrim s).length ≤ s.length := by
  unfold jsTrim
  calc ((s.dropWhile isJsSpace).reverse.dropWhile isJsSpace).reverse.length
      = ((s.dropWhile isJsSpace).reverse.dropWhile isJsSpace).length := by
        rw [List.length_reverse]
    _ ≤ (s.dropWhile isJsSpace).reverse.length :=
        (List.dropWhile_sublist _).length_le
    _ = (s.dropWhile isJsSpace).length := by rw [List.length_reverse]
    _ ≤ s.length := (List.dropWhile_sublist _).length_le

/-- The loop windows starting from cursor `i` cover every input position at
or beyond `i`: each iteration emits the window `[i, end)` and restarts the
loop at a cursor that is at most `end`. -/
theorem chunkWindowsAux_cover (text : List Char) :
    ∀ n i p, text.length - i ≤ n → i ≤ p → p < text.length →
    ∃ w ∈ chunkWindowsAux text i, w.1 ≤ p ∧ p < w.2 := by
  intro n
  induction n with
  | zero => intro i p h1 h2 h3; omega
  | succ n ih =>
    intro i p h1 h2 h3
    have hi : i < text.length := by omega
    rw [chunkWindowsAux, dif_pos hi]
    by_cases hp : p < chunkEnd text i
    · exact ⟨(i, chunkEnd text i), List.mem_cons_self _ _, h2, hp⟩
    · have he : chunkEnd text i ≤ p := by omega
      have hg := chunkEnd_gt text i
      have hnle : chunkNext text i ≤ p := by
        unfold chunkNext; split <;> omega
      have hgt := chunkNext_gt text i
      obtain ⟨w, hw, hw2⟩ := ih (chunkNext text i) p (by omega) hnle h3
      exact ⟨w, List.mem_cons_of_mem _ hw, hw2⟩

set_option maxRecDepth 1000000

/-- C1: the spec claims each fragment after the first re-includes the last
100 characters of its predecessor (cursor = cut point − overlap).  The code
violates this: on the 700-character break-free input the safety exit
`end <= i + overlap` — evaluated against the already-updated cursor — always
holds, so the cursor jumps to the previous cut point and the consecutive
source windows `[0, 600)` and `[600, 1200)` share no characters at all
instead of a 100-character overlap region. -/
theorem claim1_no_overlap_eval :
    chunkRaw (List.replicate 700 'a') = [(0, 600), (600, 1200)] := by
  have e1 : chunkEnd (List.replicate 700 'a') 0 = 600 := by decide
  have n1 : chunkNext (List.replicate 700 'a') 0 = 600 := by decide
  have e2 : chunkEnd (List.replicate 700 'a') 600 = 1200 := by decide
  have n2 : chunkNext (List.replicate 700 'a') 600 = 1100 := by decide
  rw [chunkRaw, chunkWindowsAux, dif_pos (by decide : 0 < (List.replicate 700 'a').length),
      e1, n1, chunkWindowsAux, dif_pos (by decide : 600 < (List.replicate 700 'a').length),
      e2, n2, chunkWindowsAux, dif_neg (by decide : ¬ 1100 < (List.replicate 700 'a').length)]

/-- C2 counterexample: the input of 600 letters followed by "bb" has length
602, but the only fragment surviving the `length > 10` post-filter has source
window `[0, 600)`, so positions 600 and 601 lie in no returned fragment's
window — the returned fragments do not cover the entire input. -/
theorem claim2_counterexample :
    keptWindows (List.replicate 600 'a' ++ ['b', 'b']) = [(0, 600)] ∧
    (List.replicate 600 'a' ++ ['b', 'b']).length = 602 := by
  have e1 : chunkEnd (List.replicate 600 'a' ++ ['b', 'b']) 0 = 600 := by decide
  have n1 : chunkNext (List.replicate 600 'a' ++ ['b', 'b']) 0 = 600 := by decide
  have e2 : chunkEnd (List.replicate 600 'a' ++ ['b', 'b']) 600 = 1200 := by decide
  have n2 : chunkNext (List.replicate 600 'a' ++ ['b', 'b']) 600 = 1100 := by decide
  have hRaw : chunkRaw (List.replicate 600 'a' ++ ['b', 'b']) = [(0, 600), (600, 1200)] := by
    rw [chunkRaw, chunkWindowsAux,
        dif_pos (by decide : 0 < (List.replicate 600 'a' ++ ['b', 'b']).length),
        e1, n1, chunkWindowsAux,
        dif_pos (by decide : 600 < (List.replicate 600 'a' ++ ['b', 'b']).length),
        e2, n2, chunkWindowsAux,
        dif_neg (by decide : ¬ 1100 < (List.replicate 600 'a' ++ ['b', 'b']).length)]
  constructor
  · rw [keptWindows, hRaw]; decide
  · decide

/-- C2 amended: before the `length > 10` post-filter the fragment source
windows of `chunkText` do cover every character position of the input with no
gaps; the post-filter may then discard short windows, leaving the
corresponding positions uncovered by the returned fragments. -/
theorem claim2_windows_cover (text : List Char) (p : Nat) (hp : p < text.length) :
    ∃ w ∈ chunkRaw text, w.1 ≤ p ∧ p < w.2 :=
  chunkWindowsAux_cover text text.length 0 p (by omega) (Nat.zero_le p) hp

/-- Witness for the C2 amended theorem at a concrete input and position. -/
theorem claim2_windows_cover_witness :
    5 < (List.replicate 20 'a').length ∧
    ∃ w ∈ chunkRaw (List.replicate 20 'a'), w.1 ≤ 5 ∧ 5 < w.2 :=
  ⟨by decide, claim2_windows_cover (List.replicate 20 'a') 5 (by decide)⟩

/-- C3 counterexample: the 550-character break-free input has length at most
600 (the target size), yet `chunkText` returns two fragments, not one: the
cursor advances to `600 − overlap = 500 < 550`, so a second 50-character
fragment `[500, 550)` is emitted and survives the post-filter. -/
theorem claim3_counterexample : (chunkText (List.replicate 550 'a')).length = 2 := by
  have e1 : chunkEnd (List.replicate 550 'a') 0 = 600 := by decide
  have n1 : chunkNext (List.replicate 550 'a') 0 = 500 := by decide
  have e2 : chunkEnd (List.replicate 550 'a') 500 = 1100 := by decide
  have n2 : chunkNext (List.replicate 550 'a') 500 = 1000 := by decide
  have hRaw : chunkRaw (List.replicate 550 'a') = [(0, 600), (500, 1100)] := by
    rw [chunkRaw, chunkWindowsAux, dif_pos (by decide : 0 < (List.replicate 550 'a').length),
        e1, n1, chunkWindowsAux, dif_pos (by decide : 500 < (List.replicate 550 'a').length),
        e2, n2, chunkWindowsAux, dif_neg (by decide : ¬ 1000 < (List.replicate 550 'a').length)]
  rw [chunkText, hRaw]; decide

/-- C3 amended: an input of length at most `targetSize − overlap = 500` whose
trimmed length exceeds the post-filter threshold 10 yields exactly one
fragment.  (Length at most 600 is not enough: lengths in `(500, 600]` produce
a second fragment, and inputs trimming to at most 10 characters produce
none.) -/
theorem claim3_single_fragment (text : List Char) (hlen : text.length ≤ 500)
    (htrim : 10 < (jsTrim text).length) : (chunkText text).length = 1 := by
  have h0 : 0 < text.length := lt_of_lt_of_le (by omega) (jsTrim_length_le text)
  have hE : chunkEnd text 0 = 600 := by
    unfold chunkEnd; rw [if_neg (by omega)]
  have hN : chunkNext text 0 = 500 := by
    unfold chunkNext; rw [hE, if_neg (by omega)]
  have hRaw : chunkRaw text = [(0, 600)] := by
    rw [chunkRaw, chunkWindowsAux, dif_pos h0, hE, hN, chunkWindowsAux,
        dif_neg (by omega)]
  have hfrag : chunkFragment text (0, 600) = jsTrim text := by
    unfold chunkFragment jsSubstring
    simp [List.take_of_length_le (by omega : text.length ≤ 600)]
  rw [chunkText, hRaw]
  simp [hfrag, List.filter, htrim]

/-- Witness for the C3 amended theorem at a concrete input. -/
theorem claim3_single_fragment_witness :
    (List.replicate 20 'a').length ≤ 500 ∧
    10 < (jsTrim (List.replicate 20 'a')).length ∧
    (chunkText (List.replicate 20 'a')).length = 1 :=
  ⟨by decide, by decide, claim3_single_fragment (List.replicate 20 'a') (by decide) (by decide)⟩

/-! ## Cosine similarity and retrieval ranking

JavaScript numbers are modelled as real numbers together with the IEEE
special values NaN, `+Infinity` and `-Infinity` that the similarity code can
produce.  Inside the accumulation loop only finite values and NaN occur, so
the accumulators are carried as `Option ℝ` with `none` standing for NaN
(an out-of-range array read yields `undefined`, and any arithmetic on
`undefined` yields NaN). -/

/-- Result values of the JavaScript similarity computation. -/
inductive JsNum where
  | nan : JsNum
  | pinf : JsNum
  | ninf : JsNum
  | fin : ℝ → JsNum

/-- JavaScript `+` on a finite-or-NaN value: NaN propagates. -/
def oadd : Option ℝ → Option ℝ → Option ℝ
  | some x, some y => some (x + y)
  | _, _ => none

/-- JavaScript `*` on a finite-or-NaN value: NaN propagates. -/
def omul : Option ℝ → Option ℝ → Option ℝ
  | some x, some y => some (x * y)
  | _, _ => none

/-- Model of `Math.sqrt`: NaN on negative input, NaN propagates. -/
noncomputable def osqrt : Option ℝ → Option ℝ
  | some x => if x < 0 then none else some (Real.sqrt x)
  | none => none

/-- Model of JavaScript division on finite-or-NaN operands: `0/0` and any
NaN operand give NaN, a nonzero numerator over zero gives a signed
infinity, and otherwise the quotient is finite. -/
noncomputable def jsDiv : Option ℝ → Option ℝ → JsNum
  | some x, some y =>
    if y = 0 then (if x = 0 then JsNum.nan else if 0 < x then JsNum.pinf else JsNum.ninf)
    else JsNum.fin (x / y)
  | _, _ => JsNum.nan

/-- The accumulation loop of `cosineSimilarity` (main.js lines 245–249): the
index `i` ranges over the positions of `v1`, modelled by peeling `v1`;
`v2[i]` is read through `head?` of the correspondingly peeled `v2`, so an
out-of-range read yields `none` (JavaScript `undefined`, hence NaN in the
accumulator). -/
def cosLoop : List ℝ → List ℝ → Option ℝ → Option ℝ → Option ℝ →
    Option ℝ × Option ℝ × Option ℝ
  | [], _, dot, m1, m2 => (dot, m1, m2)
  | x :: t1, v2, dot, m1, m2 =>
    cosLoop t1 v2.tail (oadd dot (omul (some x) v2.head?))
      (oadd m1 (omul (some x) (some x)))
      (oadd m2 (omul v2.head? v2.head?))

/-- Model of `cosineSimilarity(v1, v2)` (main.js lines 241–251):
`dot / (Math.sqrt(m1) * Math.sqrt(m2))` over the loop's accumulators. -/
noncomputable def cosineSimilarity (v1 v2 : List ℝ) : JsNum :=
  jsDiv (cosLoop v1 v2 (some 0) (some 0) (some 0)).1
    (omul (osqrt (cosLoop v1 v2 (some 0) (some 0) (some 0)).2.1)
          (osqrt (cosLoop v1 v2 (some 0) (some 0) (some 0)).2.2))

/-- Sum of squares of a vector (specification-side helper). -/
def sumSq : List ℝ → ℝ
  | [] => 0
  | x :: t => x * x + sumSq t

/-- Dot product over the common prefix (specification-side helper). -/
def dotList : List ℝ → List ℝ → ℝ
  | x :: t1, y :: t2 => x * y + dotList t1 t2
  | _, _ => 0

/-- A NaN dot accumulator is never cleared by the rest of the loop. -/
theorem cosLoop_dot_absorb : ∀ (v1 v2 : List ℝ) (m1 m2 : Option ℝ),
    (cosLoop v1 v2 none m1 m2).1 = none := by
  intro v1
  induction v1 with
  | nil => intro v2 m1 m2; rfl
  | cons x t1 ih => intro v2 m1 m2; simp [cosLoop, oadd, ih]

/-- When `v2` is shorter than `v1` the loop reads `v2` out of range, so the
dot accumulator ends as NaN whatever its starting value. -/
theorem cosLoop_dot_none : ∀ (v1 v2 : List ℝ) (d m1 m2 : Option ℝ),
    v2.length < v1.length → (cosLoop v1 v2 d m1 m2).1 = none := by
  intro v1
  induction v1 with
  | nil => intro v2 d m1 m2 h; simp at h
  | cons x t1 ih =>
    intro v2 d m1 m2 h
    match v2 with
    | [] =>
      have : oadd d (omul (some x) (List.head? ([] : List ℝ))) = none := by
        cases d <;> simp [oadd, omul]
      simp only [cosLoop, this]
      exact cosLoop_dot_absorb _ _ _ _
    | y :: t2 =>
      simp only [cosLoop]
      exact ih t2 _ _ _ (by simpa using h)

/-- The loop only reads the first `v1.length` entries of `v2`. -/
theorem cosLoop_take : ∀ (v1 v2 : List ℝ) (d m1 m2 : Option ℝ),
    v1.length ≤ v2.length →
    cosLoop v1 (v2.take v1.length) d m1 m2 = cosLoop v1 v2 d m1 m2 := by
  intro v1
  induction v1 with
  | nil => intro v2 d m1 m2 _; rfl
  | cons x t1 ih =>
    intro v2 d m1 m2 h
    match v2 with
    | [] => simp at h
    | y :: t2 =>
      simp only [List.length_cons, List.take_succ_cons, cosLoop, List.head?, List.tail]
      exact ih t2 _ _ _ (by simpa using h)

/-- Characterisation of the loop when no out-of-range read occurs. -/
theorem cosLoop_spec : ∀ (v1 v2 : List ℝ) (d a b : ℝ),
    v1.length ≤ v2.length →
    cosLoop v1 v2 (some d) (some a) (some b) =
      (some (d + dotList v1 v2), some (a + sumSq v1),
       some (b + sumSq (v2.take v1.length))) := by
  intro v1
  induction v1 with
  | nil => intro v2 d a b _; simp [cosLoop, dotList, sumSq]
  | cons x t1 ih =>
    intro v2 d a b h
    match v2 with
    | [] => simp at h
    | y :: t2 =>
      simp only [cosLoop, List.head?, List.tail, oadd, omul]
      rw [ih t2 _ _ _ (by simpa using h)]
      simp only [List.length_cons, List.take_succ_cons, dotList, sumSq, Prod.mk.injEq,
        Option.some.injEq]
      refine ⟨by ring, by ring, by ring⟩

/-- A sum of squares is nonnegative. -/
theorem sumSq_nonneg (v : List ℝ) : 0 ≤ sumSq v := by
  induction v with
  | nil => simp [sumSq]
  | cons x t ih => simpa [sumSq] using add_nonneg (mul_self_nonneg x) ih

/-- C6 counterexample: with a query of length 1 against a stored embedding of
length 2 the code raises nothing and computes an actual finite score (from
the query-length prefix), and in the opposite mismatch it returns a NaN
score; in neither direction does a length-mismatch failure occur, refuting
the claim that every unequal-length pair fails with an error. -/
theorem claim6_counterexample :
    cosineSimilarity [(1 : ℝ)] [1, 5] = JsNum.fin 1 ∧
    cosineSimilarity [(1 : ℝ), 2] [1] = JsNum.nan := by
  constructor
  · show jsDiv _ _ = _
    norm_num [cosineSimilarity, cosLoop, oadd, omul, osqrt, jsDiv, Real.sqrt_one]
  · norm_num [cosineSimilarity, cosLoop, oadd, omul, osqrt, jsDiv]

/-- C6 amended: `cosineSimilarity` performs no length check and never raises:
it is a total function.  When the second vector is shorter, the out-of-range
reads make the result NaN; when it is at least as long, the result is
computed from only the first `v1.length` entries of `v2` — exactly as if
`v2` had been truncated. -/
theorem claim6_no_length_check (v1 v2 : List ℝ) :
    (v2.length < v1.length → cosineSimilarity v1 v2 = JsNum.nan) ∧
    (v1.length ≤ v2.length →
      cosineSimilarity v1 v2 = cosineSimilarity v1 (v2.take v1.length)) := by
  constructor
  · intro h
    unfold cosineSimilarity
    rw [cosLoop_dot_none v1 v2 _ _ _ h]
    rfl
  · intro h
    unfold cosineSimilarity
    rw [cosLoop_take v1 v2 _ _ _ h]

/-- Witness for the C6 amended theorem at concrete mismatched vectors. -/
theorem claim6_no_length_check_witness :
    cosineSimilarity [(1 : ℝ), 2, 3] [1] = JsNum.nan ∧
    cosineSimilarity [(1 : ℝ)] [1, 5] = cosineSimilarity [(1 : ℝ)] ([1, 5].take 1) :=
  ⟨(claim6_no_length_check [1, 2, 3] [1]).1 (by decide),
   (claim6_no_length_check [1] [1, 5]).2 (by decide)⟩

/-- Precedence induced by the sort comparator `(a, b) => b.score - a.score`
of main.js line 411 under the ECMAScript `SortCompare` coercion: a NaN
comparator value counts as `0` (a tie), so any NaN score ties with
everything; on finite scores `a` precedes `b` exactly when
`b.score - a.score ≤ 0`. -/
def jsPrec : JsNum → JsNum → Prop
  | .nan, _ => True
  | _, .nan => True
  | .fin x, .fin y => y ≤ x
  | .pinf, _ => True
  | .ninf, .ninf => True
  | .ninf, _ => False
  | .fin _, .pinf => False
  | .fin _, .ninf => True

noncomputable instance : DecidableRel jsPrec := fun _ _ => Classical.propDecidable _

/-- The comparator precedence lifted to the `{idx, score}` records built at
main.js lines 405–408. -/
def pairPrec (a b : Nat × JsNum) : Prop := jsPrec a.2 b.2

noncomputable instance : DecidableRel pairPrec := fun _ _ => Classical.propDecidable _

/-- The `scores` array of main.js lines 405–408: each stored embedding is
paired with its index and its cosine similarity to the query embedding. -/
noncomputable def scoreList (q : List ℝ) : Nat → List (List ℝ) → List (Nat × JsNum)
  | _, [] => []
  | i, e :: es => (i, cosineSimilarity q e) :: scoreList q (i + 1) es

/-- `scores.sort((a, b) => b.score - a.score)` (main.js line 411).
ECMAScript 2019 requires `Array.prototype.sort` to be stable, and with a
consistent comparator every stable sort produces the insertion-sort order,
so the sort is modelled by `List.insertionSort` over the comparator
precedence. -/
noncomputable def rankFragments (q : List ℝ) (embs : List (List ℝ)) : List (Nat × JsNum) :=
  List.insertionSort pairPrec (scoreList q 0 embs)

/-- `const top3 = scores.slice(0, 3)` (main.js line 412). -/
noncomputable def retrieveTop3 (q : List ℝ) (embs : List (List ℝ)) : List (Nat × JsNum) :=
  (rankFragments q embs).take 3

/-- The context fragments injected into the prompt:
`top3.map(s => docState.chunks[s.idx])` (main.js lines 416–418), with an
out-of-range chunk access modelled as `none`. -/
noncomputable def contextFragments (q : List ℝ) (embs : List (List ℝ))
    (chunks : List (List Char)) : List (Option (List Char)) :=
  (retrieveTop3 q embs).map (fun s => chunks[s.1]?)

/-- The order the spec claims for the ranking output: strictly descending
score, with equal scores broken by original fragment index.  A NaN score is
unordered (as in IEEE comparison), so no element may precede one. -/
def rankedBefore : Nat × JsNum → Nat × JsNum → Prop
  | (i, .fin x), (j, .fin y) => y < x ∨ (x = y ∧ i < j)
  | _, _ => False

/-- Inserting a finite-scored record whose index is below every index of an
already ranked list preserves the descending/stable order. -/
theorem orderedInsert_rankedBefore (x : Nat × JsNum) :
    ∀ (s : List (Nat × JsNum)),
    (∃ v, x.2 = JsNum.fin v) →
    (∀ p ∈ s, ∃ v, p.2 = JsNum.fin v) →
    (∀ p ∈ s, x.1 < p.1) →
    List.Sorted rankedBefore s →
    List.Sorted rankedBefore (List.orderedInsert pairPrec x s) := by
  intro s
  induction s with
  | nil => intro _ _ _ _; simp [List.orderedInsert]
  | cons y s' ih =>
    intro hx hs hix hsort
    obtain ⟨vx, hvx⟩ := hx
    obtain ⟨vy, hvy⟩ := hs y (List.mem_cons_self _ _)
    have hsort' : List.Sorted rankedBefore s' := (List.pairwise_cons.mp hsort).2
    have hyrel : ∀ p ∈ s', rankedBefore y p := (List.pairwise_cons.mp hsort).1
    rw [List.orderedInsert]
    by_cases h : pairPrec x y
    · rw [if_pos h]
      have hxy : vy ≤ vx := by
        have := h
        unfold pairPrec at this
        rw [hvx, hvy] at this
        exact this
      refine List.pairwise_cons.mpr ⟨?_, hsort⟩
      intro z hz
      rcases List.mem_cons.mp hz with rfl | hz'
      · show rankedBefore x z
        rcases lt_or_eq_of_le hxy with hlt | heq
        · obtain ⟨i, xi⟩ := x; obtain ⟨j, yj⟩ := z
          simp only at hvx hvy
          rw [hvx, hvy]
          exact Or.inl hlt
        · obtain ⟨i, xi⟩ := x; obtain ⟨j, yj⟩ := z
          simp only at hvx hvy
          rw [hvx, hvy]
          exact Or.inr ⟨heq.symm, hix _ (List.mem_cons_self _ _)⟩
      · obtain ⟨vz, hvz⟩ := hs z (List.mem_cons_of_mem _ hz')
        have hyz := hyrel z hz'
        obtain ⟨i, xi⟩ := x; obtain ⟨j, yj⟩ := y; obtain ⟨k, zk⟩ := z
        simp only at hvx hvy hvz
        rw [hvy, hvz] at hyz
        unfold rankedBefore at hyz
        rw [hvx, hvz]
        show vz < vx ∨ (vx = vz ∧ i < k)
        have hzy : vz ≤ vy := by
          rcases hyz with hlt | ⟨heq, _⟩
          · exact le_of_lt hlt
          · exact le_of_eq heq.symm
        rcases lt_or_eq_of_le (le_trans hzy hxy) with hlt | heq
        · exact Or.inl hlt
        · exact Or.inr ⟨heq.symm, hix (k, zk) (List.mem_cons_of_mem _ hz')⟩
    · rw [if_neg h]
      have hyx : vx < vy := by
        have hnot : ¬ vy ≤ vx := by
          intro hle
          apply h
          show jsPrec x.2 y.2
          rw [hvx, hvy]
          exact hle
        exact lt_of_not_le hnot
      refine List.pairwise_cons.mpr ⟨?_, ?_⟩
      · intro z hz
        rcases (List.mem_orderedInsert pairPrec).mp hz with rfl | hz'
        · obtain ⟨i, xi⟩ := z; obtain ⟨j, yj⟩ := y
          simp only at hvx hvy
          rw [hvx, hvy]
          exact Or.inl hyx
        · exact hyrel z hz'
      · exact ih ⟨vx, hvx⟩ (fun p hp => hs p (List.mem_cons_of_mem _ hp))
          (fun p hp => hix p (List.mem_cons_of_mem _ hp)) hsort'

/-- The stable sort of an all-finite score list with strictly increasing
indices is ordered by `rankedBefore`: descending scores, ties kept in
original order. -/
theorem insertionSort_rankedBefore :
    ∀ (l : List (Nat × JsNum)),
    (∀ p ∈ l, ∃ v, p.2 = JsNum.fin v) →
    List.Pairwise (fun a b => a.1 < b.1) l →
    List.Sorted rankedBefore (List.insertionSort pairPrec l) := by
  intro l
  induction l with
  | nil => intro _ _; simp [List.insertionSort]
  | cons x t ih =>
    intro hfin hidx
    rw [List.insertionSort]
    apply orderedInsert_rankedBefore
    · exact hfin x (List.mem_cons_self _ _)
    · intro p hp
      exact hfin p (List.mem_cons_of_mem _ ((List.mem_insertionSort pairPrec).mp hp))
    · intro p hp
      exact (List.pairwise_cons.mp hidx).1 p ((List.mem_insertionSort pairPrec).mp hp)
    · exact ih (fun p hp => hfin p (List.mem_cons_of_mem _ hp)) (List.pairwise_cons.mp hidx).2

/-- A query and stored embedding of equal dimension and nonzero magnitude
always get a finite cosine score. -/
theorem cosineSimilarity_fin (q e : List ℝ) (hl : e.length = q.length)
    (hq : sumSq q ≠ 0) (he : sumSq e ≠ 0) :
    ∃ x, cosineSimilarity q e = JsNum.fin x := by
  have hspec := cosLoop_spec q e 0 0 0 (le_of_eq hl.symm)
  have htake : e.take q.length = e := List.take_of_length_le (le_of_eq hl)
  rw [htake] at hspec
  refine ⟨(0 + dotList q e) / (Real.sqrt (0 + sumSq q) * Real.sqrt (0 + sumSq e)), ?_⟩
  unfold cosineSimilarity
  rw [hspec]
  have hq0 : (0 : ℝ) ≤ sumSq q := sumSq_nonneg q
  have he0 : (0 : ℝ) ≤ sumSq e := sumSq_nonneg e
  have hsq : osqrt (some (0 + sumSq q)) = some (Real.sqrt (0 + sumSq q)) := by
    rw [osqrt, if_neg (by linarith)]
  have hse : osqrt (some (0 + sumSq e)) = some (Real.sqrt (0 + sumSq e)) := by
    rw [osqrt, if_neg (by linarith)]
  rw [hsq, hse]
  have hne : Real.sqrt (0 + sumSq q) * Real.sqrt (0 + sumSq e) ≠ 0 := by
    have h1 : 0 < Real.sqrt (0 + sumSq q) := Real.sqrt_pos.mpr (by
      rcases lt_or_eq_of_le hq0 with h | h
      · linarith
      · exact absurd h.symm hq)
    have h2 : 0 < Real.sqrt (0 + sumSq e) := Real.sqrt_pos.mpr (by
      rcases lt_or_eq_of_le he0 with h | h
      · linarith
      · exact absurd h.symm he)
    positivity
  rw [omul, jsDiv, if_neg hne]

/-- The scores array has one record per stored embedding. -/
theorem scoreList_length (q : List ℝ) : ∀ (i : Nat) (embs : List (List ℝ)),
    (scoreList q i embs).length = embs.length := by
  intro i embs
  induction embs generalizing i with
  | nil => rfl
  | cons e es ih => simp [scoreList, ih]

/-- Indices in the scores array are at least the starting index. -/
theorem scoreList_idx_ge (q : List ℝ) : ∀ (i : Nat) (embs : List (List ℝ)),
    ∀ p ∈ scoreList q i embs, i ≤ p.1 := by
  intro i embs
  induction embs generalizing i with
  | nil => intro p hp; simp [scoreList] at hp
  | cons e es ih =>
    intro p hp
    rcases List.mem_cons.mp hp with rfl | hp'
    · exact le_refl _
    · exact le_trans (Nat.le_succ i) (ih (i + 1) p hp')

/-- Indices in the scores array are strictly increasing. -/
theorem scoreList_pairwise_idx (q : List ℝ) : ∀ (i : Nat) (embs : List (List ℝ)),
    List.Pairwise (fun a b => a.1 < b.1) (scoreList q i embs) := by
  intro i embs
  induction embs generalizing i with
  | nil => simp [scoreList]
  | cons e es ih =>
    refine List.pairwise_cons.mpr ⟨?_, ih (i + 1)⟩
    intro p hp
    exact lt_of_lt_of_le (Nat.lt_succ_self i) (scoreList_idx_ge q (i + 1) es p hp)

/-- Under the dimension and nonzero-magnitude hypotheses all scores are
finite. -/
theorem scoreList_fin (q : List ℝ) (hq : sumSq q ≠ 0) :
    ∀ (i : Nat) (embs : List (List ℝ)),
    (∀ e ∈ embs, e.length = q.length) → (∀ e ∈ embs, sumSq e ≠ 0) →
    ∀ p ∈ scoreList q i embs, ∃ v, p.2 = JsNum.fin v := by
  intro i embs
  induction embs generalizing i with
  | nil => intro _ _ p hp; simp [scoreList] at hp
  | cons e es ih =>
    intro hdim hnz p hp
    rcases List.mem_cons.mp hp with rfl | hp'
    · exact cosineSimilarity_fin q e (hdim e (List.mem_cons_self _ _)) hq
        (hnz e (List.mem_cons_self _ _))
    · exact ih (i + 1) (fun x hx => hdim x (List.mem_cons_of_mem _ hx))
        (fun x hx => hnz x (List.mem_cons_of_mem _ hx)) p hp'

/-- C7 counterexample: the claim quantifies over every equal-dimension
fragment-embedding sequence, but with the zero vector `[0]` among the
stored embeddings its cosine score is NaN, the comparator treats NaN as a
tie, and the returned sequence — NaN-scored fragment first, score-1
fragment second — is not sorted by descending score. -/
theorem claim7_counterexample :
    (∀ e ∈ [[(0 : ℝ)], [1]], e.length = [(1 : ℝ)].length) ∧
    ¬ List.Sorted rankedBefore (retrieveTop3 [(1 : ℝ)] [[0], [1]]) := by
  refine ⟨by simp, ?_⟩
  have h1 : cosineSimilarity [(1 : ℝ)] [0] = JsNum.nan := by
    norm_num [cosineSimilarity, cosLoop, oadd, omul, osqrt, jsDiv, Real.sqrt_one]
  have h2 : cosineSimilarity [(1 : ℝ)] [1] = JsNum.fin 1 := by
    norm_num [cosineSimilarity, cosLoop, oadd, omul, osqrt, jsDiv, Real.sqrt_one]
  have hout : retrieveTop3 [(1 : ℝ)] [[0], [1]] = [(0, JsNum.nan), (1, JsNum.fin 1)] := by
    rw [retrieveTop3, rankFragments]
    rw [show scoreList [(1 : ℝ)] 0 [[0], [1]] = [(0, JsNum.nan), (1, JsNum.fin 1)] by
      simp [scoreList, h1, h2]]
    simp [List.insertionSort, List.orderedInsert, pairPrec, jsPrec]
  rw [hout]
  intro hsort
  have := (List.pairwise_cons.mp hsort).1 (1, JsNum.fin 1) (List.mem_cons_self _ _)
  exact this

/-- C7 amended: restricted to embeddings of the query's dimension with
nonzero magnitude (the inference runtime's embeddings are normalized, hence
nonzero, by its contract), the retrieval step returns the fragments sorted
by strictly descending cosine score with ties in original fragment order,
and the top-3 selection is a prefix of the full sorted sequence — all of it
when fewer than three fragments exist. -/
theorem claim7_ranked_retrieval (q : List ℝ) (embs : List (List ℝ))
    (hdim : ∀ e ∈ embs, e.length = q.length)
    (hq : sumSq q ≠ 0) (hnz : ∀ e ∈ embs, sumSq e ≠ 0) :
    retrieveTop3 q embs = (rankFragments q embs).take 3 ∧
    List.Sorted rankedBefore (rankFragments q embs) ∧
    List.Sorted rankedBefore (retrieveTop3 q embs) ∧
    (retrieveTop3 q embs).length = min 3 embs.length ∧
    (embs.length ≤ 3 → retrieveTop3 q embs = rankFragments q embs) := by
  have hsorted : List.Sorted rankedBefore (rankFragments q embs) :=
    insertionSort_rankedBefore (scoreList q 0 embs)
      (scoreList_fin q hq 0 embs hdim hnz) (scoreList_pairwise_idx q 0 embs)
  have hlen : (rankFragments q embs).length = embs.length := by
    rw [rankFragments, List.length_insertionSort, scoreList_length]
  refine ⟨rfl, hsorted, ?_, ?_, ?_⟩
  · exact List.Pairwise.sublist (List.take_sublist 3 _) hsorted
  · rw [retrieveTop3, List.length_take, hlen]
  · intro h3
    rw [retrieveTop3, List.take_of_length_le (by omega : (rankFragments q embs).length ≤ 3)]

/-- Witness for the C7 amended theorem at a concrete query and embedding
store. -/
theorem claim7_ranked_retrieval_witness :
    (∀ e ∈ [[(2 : ℝ)]], e.length = [(1 : ℝ)].length) ∧ sumSq [(1 : ℝ)] ≠ 0 ∧
    (∀ e ∈ [[(2 : ℝ)]], sumSq e ≠ 0) ∧
    List.Sorted rankedBefore (retrieveTop3 [(1 : ℝ)] [[2]]) ∧
    (retrieveTop3 [(1 : ℝ)] [[2]]).length = min 3 ([[(2 : ℝ)]].length) := by
  have hdim : ∀ e ∈ [[(2 : ℝ)]], e.length = [(1 : ℝ)].length := by simp
  have hq : sumSq [(1 : ℝ)] ≠ 0 := by norm_num [sumSq]
  have hnz : ∀ e ∈ [[(2 : ℝ)]], sumSq e ≠ 0 := by norm_num [sumSq]
  have h := claim7_ranked_retrieval [(1 : ℝ)] [[2]] hdim hq hnz
  exact ⟨hdim, hq, hnz, h.2.2.1, h.2.2.2.1⟩

/-- C10: on a zero-magnitude query embedding (all components zero) the
unguarded division `0 / 0` makes `cosineSimilarity` return NaN rather than
raising an error or producing a number, and the retrieval ranking still
completes: with four stored embeddings the NaN-tied comparator leaves the
original order, three records are selected, and three document fragments
are produced for the context block. -/
theorem claim10_zero_vector_nan :
    cosineSimilarity [(0 : ℝ), 0] [1, 0] = JsNum.nan ∧
    retrieveTop3 [(0 : ℝ), 0] [[1, 0], [0, 1], [1, 1], [1, 0]] =
      [(0, JsNum.nan), (1, JsNum.nan), (2, JsNum.nan)] ∧
    contextFragments [(0 : ℝ), 0] [[1, 0], [0, 1], [1, 1], [1, 0]]
      [['d', '1'], ['d', '2'], ['d', '3'], ['d', '4']] =
      [some ['d', '1'], some ['d', '2'], some ['d', '3']] := by
  have h1 : cosineSimilarity [(0 : ℝ), 0] [1, 0] = JsNum.nan := by
    norm_num [cosineSimilarity, cosLoop, oadd, omul, osqrt, jsDiv]
  have h2 : cosineSimilarity [(0 : ℝ), 0] [0, 1] = JsNum.nan := by
    norm_num [cosineSimilarity, cosLoop, oadd, omul, osqrt, jsDiv]
  have h3 : cosineSimilarity [(0 : ℝ), 0] [1, 1] = JsNum.nan := by
    norm_num [cosineSimilarity, cosLoop, oadd, omul, osqrt, jsDiv]
  have hout : retrieveTop3 [(0 : ℝ), 0] [[1, 0], [0, 1], [1, 1], [1, 0]] =
      [(0, JsNum.nan), (1, JsNum.nan), (2, JsNum.nan)] := by
    rw [retrieveTop3, rankFragments]
    rw [show scoreList [(0 : ℝ), 0] 0 [[1, 0], [0, 1], [1, 1], [1, 0]] =
        [(0, JsNum.nan), (1, JsNum.nan), (2, JsNum.nan), (3, JsNum.nan)] by
      simp [scoreList, h1, h2, h3]]
    simp [List.insertionSort, List.orderedInsert, pairPrec, jsPrec]
  refine ⟨h1, hout, ?_⟩
  rw [contextFragments, hout]
  simp

/-! ## Token-size correction (`ensureChunkSize`) -/

/-- The bisection step of `ensureChunkSize` (main.js lines 312–319): take the
character midpoint, look for the last space in `text.substring(mid - 50,
mid + 50)`, and split at `mid - 50 + spaceRelative` when one is found, else
at `mid`.  The split index is JavaScript integer arithmetic, so it can be
negative (when `mid < 50` the window start is clamped to zero but the offset
arithmetic is not); `substring` then clamps it back to zero, which `Int.toNat`
models.  Both halves are trimmed. -/
def bisectChunk (text : List Char) : List Char × List Char :=
  let mid := text.length / 2
  let w := jsSubstring text (mid - 50) (mid + 50)
  let splitIdx : Int :=
    match lastIndexOfSub w [' '] with
    | some r => (mid : Int) - 50 + r
    | none => (mid : Int)
  (jsTrim (text.take splitIdx.toNat), jsTrim (text.drop splitIdx.toNat))

/-- Model of the recursive `ensureChunkSize` (main.js lines 306–326),
parameterised by the tokenizer's token count `tok` and by fuel, since the
source recursion is not structurally terminating: `none` means the recursion
did not finish within the given depth.  A chunk of at most 300 tokens is
returned as a leaf; otherwise both nonempty halves of the bisection are
processed recursively and concatenated (an empty half contributes nothing). -/
def ensureChunkSize (tok : List Char → Nat) : Nat → List Char → Option (List (List Char))
  | 0, _ => none
  | fuel + 1, text =>
    if tok text ≤ 300 then some [text]
    else
      (if (bisectChunk text).1.isEmpty then some []
       else ensureChunkSize tok fuel (bisectChunk text).1).bind fun ls =>
      (if (bisectChunk text).2.isEmpty then some []
       else ensureChunkSize tok fuel (bisectChunk text).2).bind fun rs =>
      some (ls ++ rs)

/-- C4 counterexample: on the single character `'a'` the bisection produces
an empty left half and a right half equal to the whole input, so with any
tokenizer assigning it more than 300 tokens the recursion re-submits the
same text forever — even 50 levels of recursion do not finish, and the
"accepted as a leaf" clause of the claim has no counterpart in the code. -/
theorem claim4_counterexample :
    bisectChunk ['a'] = ([], ['a']) ∧
    ensureChunkSize (fun _ => 301) 50 ['a'] = none := by
  constructor
  · decide
  · decide

/-- A found last-index lies inside the searched string. -/
theorem lastIndexOfSub_lt (s pat : List Char) (r : Nat)
    (h : lastIndexOfSub s pat = some r) : r < s.length := by
  unfold lastIndexOfSub at h
  have hmem := List.mem_of_mem_getLast? h
  have := List.mem_filter.mp hmem
  exact List.mem_range.mp this.1

/-- For texts of at least 102 characters both halves of the bisection are
strictly shorter than the input. -/
theorem bisect_shrink (text : List Char) (h : 102 ≤ text.length) :
    (bisectChunk text).1.length < text.length ∧
    (bisectChunk text).2.length < text.length := by
  unfold bisectChunk
  set mid := text.length / 2 with hmid
  have hw : (jsSubstring text (mid - 50) (mid + 50)).length ≤ 100 := by
    unfold jsSubstring
    have hmax : max (mid - 50) (mid + 50) = mid + 50 := by omega
    have hmin : min (mid - 50) (mid + 50) = mid - 50 := by omega
    rw [hmax, hmin]
    simp only [List.length_drop, List.length_take]
    omega
  cases hfind : lastIndexOfSub (jsSubstring text (mid - 50) (mid + 50)) [' '] with
  | none =>
    simp only [hfind]
    have htn : ((mid : Int)).toNat = mid := by omega
    rw [htn]
    have h1 : (jsTrim (text.take mid)).length ≤ mid := by
      have := jsTrim_length_le (text.take mid)
      have h2 := List.length_take mid text
      omega
    have h2 : (jsTrim (text.drop mid)).length ≤ text.length - mid := by
      have := jsTrim_length_le (text.drop mid)
      have h3 := List.length_drop mid text
      omega
    constructor <;> omega
  | some r =>
    simp only [hfind]
    have hr := lastIndexOfSub_lt _ _ _ hfind
    have hrw : r < 100 := lt_of_lt_of_le hr hw
    have htn : ((mid : Int) - 50 + r).toNat = mid - 50 + r := by omega
    rw [htn]
    have h1 : (jsTrim (text.take (mid - 50 + r))).length ≤ mid - 50 + r := by
      have := jsTrim_length_le (text.take (mid - 50 + r))
      have h2 := List.length_take (mid - 50 + r) text
      omega
    have h2 : (jsTrim (text.drop (mid - 50 + r))).length ≤ text.length - (mid - 50 + r) := by
      have := jsTrim_length_le (text.drop (mid - 50 + r))
      have h3 := List.length_drop (mid - 50 + r) text
      omega
    constructor <;> omega

/-- For a tokenizer emitting at most one token per character, any chunk over
the 300-token threshold has over 300 characters, and then each bisection is
strictly shrinking, so fuel exceeding the character length always
suffices. -/
theorem ensureChunkSize_total (tok : List Char → Nat) (htok : ∀ t, tok t ≤ t.length) :
    ∀ (n : Nat) (text : List Char), text.length < n →
    (ensureChunkSize tok n text).isSome := by
  intro n
  induction n with
  | zero => intro text h; omega
  | succ n ih =>
    intro text h
    rw [ensureChunkSize]
    by_cases htk : tok text ≤ 300
    · rw [if_pos htk]; rfl
    · rw [if_neg htk]
      have hlen : 301 ≤ text.length := le_trans (by omega) (htok text)
      have hs := bisect_shrink text (by omega)
      have h1 : (if (bisectChunk text).1.isEmpty then some ([] : List (List Char))
          else ensureChunkSize tok n (bisectChunk text).1).isSome := by
        by_cases hc : (bisectChunk text).1.isEmpty
        · rw [if_pos hc]; rfl
        · rw [if_neg hc]; exact ih _ (by omega)
      have h2 : (if (bisectChunk text).2.isEmpty then some ([] : List (List Char))
          else ensureChunkSize tok n (bisectChunk text).2).isSome := by
        by_cases hc : (bisectChunk text).2.isEmpty
        · rw [if_pos hc]; rfl
        · rw [if_neg hc]; exact ih _ (by omega)
      obtain ⟨ls, hls⟩ := Option.isSome_iff_exists.mp h1
      obtain ⟨rs, hrs⟩ := Option.isSome_iff_exists.mp h2
      rw [hls, hrs]
      rfl

/-- C4 amended: for every tokenizer that emits at most one token per
character, `ensureChunkSize` terminates within fuel `length + 1`.  For an
arbitrary tokenizer the recursion can diverge: a text shorter than 100
characters can make the split index nonpositive, so the right half equals
the whole text and is re-submitted unchanged, and no leaf-acceptance branch
exists for unsplittable over-threshold fragments. -/
theorem claim4_tokenizer_bounded_terminates (tok : List Char → Nat)
    (htok : ∀ t, tok t ≤ t.length) (text : List Char) :
    (ensureChunkSize tok (text.length + 1) text).isSome :=
  ensureChunkSize_total tok htok (text.length + 1) text (by omega)

/-- Witness for the C4 amended theorem with the one-token-per-character
tokenizer on a concrete text. -/
theorem claim4_tokenizer_bounded_terminates_witness :
    (∀ t : List Char, (fun s : List Char => s.length) t ≤ t.length) ∧
    (ensureChunkSize (fun s : List Char => s.length)
      ((['h', 'i'] : List Char).length + 1) ['h', 'i']).isSome :=
  ⟨fun _ => le_refl _,
   claim4_tokenizer_bounded_terminates _ (fun _ => le_refl _) ['h', 'i']⟩

/-! ## Embedding-failure recovery (`processChunkSafe`) -/

/-- Model of the recursive `processChunkSafe` (main.js lines 345–363).  The
oracle `ok` tells whether the runtime's `embeddings` call succeeds on a
text.  The result is the pair `(submitted, succeeded)`: the texts submitted
to the embedding call, in order, and the chunks whose embedding succeeded
(the `safeChunks` array).  The source first attempts the embedding; on
failure it returns if the chunk is shorter than 10 characters, else bisects
at the midpoint, trims both halves, and recurses on each nonempty half. -/
def processChunkSafe (ok : List Char → Bool) (text : List Char) :
    List (List Char) × List (List Char) :=
  if ok text then ([text], [text])
  else if _h10 : text.length < 10 then ([text], [])
  else
    let l := jsTrim (text.take (text.length / 2))
    let r := jsTrim (text.drop (text.length / 2))
    let pl := if l.isEmpty then (([], []) : List (List Char) × List (List Char))
              else processChunkSafe ok l
    let pr := if r.isEmpty then (([], []) : List (List Char) × List (List Char))
              else processChunkSafe ok r
    ([text] ++ pl.1 ++ pr.1, pl.2 ++ pr.2)
termination_by text.length
decreasing_by
  · have h1 := jsTrim_length_le (text.take (text.length / 2))
    have h2 := List.length_take (text.length / 2) text
    omega
  · have h1 := jsTrim_length_le (text.drop (text.length / 2))
    have h2 := List.length_drop (text.length / 2) text
    omega

/-- Every chunk recorded as successfully embedded passed the embedding
oracle. -/
theorem processChunkSafe_sound (ok : List Char → Bool) :
    ∀ (n : Nat) (text : List Char), text.length ≤ n →
    ∀ c ∈ (processChunkSafe ok text).2, ok c = true := by
  intro n
  induction n using Nat.strong_induction_on with
  | _ n ih =>
    intro text hle c hc
    rw [processChunkSafe] at hc
    by_cases hok : ok text = true
    · rw [if_pos hok] at hc
      simp at hc
      subst hc
      exact hok
    · rw [if_neg hok] at hc
      by_cases h10 : text.length < 10
      · rw [dif_pos h10] at hc
        simp at hc
      · rw [dif_neg h10] at hc
        simp only [List.mem_append] at hc
        have hlt : (jsTrim (text.take (text.length / 2))).length < n := by
          have h1 := jsTrim_length_le (text.take (text.length / 2))
          have h2 := List.length_take (text.length / 2) text
          omega
        have hrt : (jsTrim (text.drop (text.length / 2))).length < n := by
          have h1 := jsTrim_length_le (text.drop (text.length / 2))
          have h2 := List.length_drop (text.length / 2) text
          omega
        rcases hc with hcl | hcr
        · by_cases he : (jsTrim (text.take (text.length / 2))).isEmpty
          · rw [if_pos he] at hcl; simp at hcl
          · rw [if_neg he] at hcl
            exact ih _ hlt _ (le_refl _) c hcl
        · by_cases he : (jsTrim (text.drop (text.length / 2))).isEmpty
          · rw [if_pos he] at hcr; simp at hcr
          · rw [if_neg he] at hcr
            exact ih _ hrt _ (le_refl _) c hcr

/-- C5 counterexample: a failing chunk of exactly 10 characters — a length
that does not exceed the floor 10 — is nevertheless bisected, and both
5-character halves (below the floor) are submitted to the embedding call
after the failure, refuting "no text of length below the floor is ever
submitted for embedding after a failure". -/
theorem claim5_counterexample :
    (processChunkSafe (fun _ => false) (List.replicate 10 'a')).1 =
      [List.replicate 10 'a', List.replicate 5 'a', List.replicate 5 'a'] ∧
    (List.replicate 5 'a').length < 10 := by
  have hl : jsTrim ((List.replicate 10 'a').take ((List.replicate 10 'a').length / 2)) =
      List.replicate 5 'a' := by decide
  have hr : jsTrim ((List.replicate 10 'a').drop ((List.replicate 10 'a').length / 2)) =
      List.replicate 5 'a' := by decide
  have hstep5 : processChunkSafe (fun _ => false) (List.replicate 5 'a') =
      ([List.replicate 5 'a'], []) := by
    rw [processChunkSafe]
    norm_num
  constructor
  · rw [processChunkSafe]
    simp only [hl, hr, hstep5]
    decide
  · decide

/-- C5 amended: on an embedding failure the chunk is bisected and retried
when its length is at least 10 (not strictly greater than 10); a failing
chunk shorter than 10 characters is submitted exactly once and then
silently dropped with nothing recorded; the halves themselves are not
pre-checked against the floor — each is submitted once and only dropped
after it too fails — and every chunk recorded as embedded passed the
embedding call. -/
theorem claim5_floor_behavior (ok : List Char → Bool) (text : List Char) :
    (∀ c ∈ (processChunkSafe ok text).2, ok c = true) ∧
    (ok text = false → text.length < 10 → processChunkSafe ok text = ([text], [])) := by
  constructor
  · exact processChunkSafe_sound ok text.length text (le_refl _)
  · intro hok h10
    rw [processChunkSafe, if_neg (by simp [hok]), dif_pos h10]

/-- Witness for the C5 amended theorem with an always-failing embedding
oracle on a short concrete chunk. -/
theorem claim5_floor_behavior_witness :
    (∀ c ∈ (processChunkSafe (fun _ => false) ['a', 'b']).2,
      (fun _ : List Char => false) c = true) ∧
    (fun _ : List Char => false) ['a', 'b'] = false ∧
    (['a', 'b'] : List Char).length < 10 ∧
    processChunkSafe (fun _ => false) ['a', 'b'] = ([['a', 'b']], []) := by
  have h := claim5_floor_behavior (fun _ => false) ['a', 'b']
  exact ⟨h.1, rfl, by decide, h.2 rfl (by decide)⟩

/-! ## Model-switch invalidation and streaming fallback -/

/-- The RAG document state (main.js lines 52–57): fragment texts, their
embeddings, and the model that produced the embeddings. -/
structure DocState where
  name : List Char
  chunks : List (List Char)
  embeddings : List (List ℝ)
  modelUrl : List Char

/-- The document-state update performed by a successful `loadModel` (main.js
lines 152–156): when a document is loaded (`chunks.length > 0`) and its
recorded model differs from the newly selected one, the embeddings array is
replaced by the empty array and the re-index warning is raised; otherwise
nothing changes.  The boolean result records whether the warning was
raised. -/
def loadModelSwitch (ds : DocState) (selected : List Char) : DocState × Bool :=
  if 0 < ds.chunks.length ∧ ds.modelUrl ≠ selected then
    ({ ds with embeddings := [] }, true)
  else (ds, false)

/-- C8: switching to a different model while an indexed document exists
clears the stored embeddings but leaves the fragment texts, their count and
the document name unchanged, and raises the re-indexing warning; switching
to the model that produced the index changes nothing and raises no
warning. -/
theorem claim8_model_switch (ds : DocState) (m : List Char) (hdoc : 0 < ds.chunks.length) :
    (ds.modelUrl ≠ m →
      (loadModelSwitch ds m).1.embeddings = [] ∧
      (loadModelSwitch ds m).1.chunks = ds.chunks ∧
      (loadModelSwitch ds m).1.chunks.length = ds.chunks.length ∧
      (loadModelSwitch ds m).1.name = ds.name ∧
      (loadModelSwitch ds m).2 = true) ∧
    (ds.modelUrl = m → loadModelSwitch ds m = (ds, false)) := by
  constructor
  · intro hne
    rw [loadModelSwitch, if_pos ⟨hdoc, hne⟩]
    exact ⟨rfl, rfl, rfl, rfl, rfl⟩
  · intro heq
    rw [loadModelSwitch, if_neg (by simp [heq])]

/-- Witness for C8 on a concrete indexed document switched to a different
model and back to the same model. -/
theorem claim8_model_switch_witness :
    (0 : Nat) < (DocState.mk ['d'] [['c', 'h', 'u', 'n', 'k', 'o', 'n', 'e', '!', '!', '!']]
      [[1]] ['m', '1']).chunks.length ∧
    (DocState.mk ['d'] [['c', 'h', 'u', 'n', 'k', 'o', 'n', 'e', '!', '!', '!']]
      [[1]] ['m', '1']).modelUrl ≠ ['m', '2'] ∧
    (loadModelSwitch (DocState.mk ['d'] [['c', 'h', 'u', 'n', 'k', 'o', 'n', 'e', '!', '!', '!']]
      [[1]] ['m', '1']) ['m', '2']).1.embeddings = [] ∧
    (loadModelSwitch (DocState.mk ['d'] [['c', 'h', 'u', 'n', 'k', 'o', 'n', 'e', '!', '!', '!']]
      [[1]] ['m', '1']) ['m', '2']).1.chunks =
      [['c', 'h', 'u', 'n', 'k', 'o', 'n', 'e', '!', '!', '!']] ∧
    (loadModelSwitch (DocState.mk ['d'] [['c', 'h', 'u', 'n', 'k', 'o', 'n', 'e', '!', '!', '!']]
      [[1]] ['m', '1']) ['m', '1']) =
      (DocState.mk ['d'] [['c', 'h', 'u', 'n', 'k', 'o', 'n', 'e', '!', '!', '!']]
      [[1]] ['m', '1'], false) := by
  have h := claim8_model_switch (DocState.mk ['d']
    [['c', 'h', 'u', 'n', 'k', 'o', 'n', 'e', '!', '!', '!']] [[1]] ['m', '1']) ['m', '2'] (by simp)
  have h2 := claim8_model_switch (DocState.mk ['d']
    [['c', 'h', 'u', 'n', 'k', 'o', 'n', 'e', '!', '!', '!']] [[1]] ['m', '1']) ['m', '1'] (by simp)
  have hne : (DocState.mk ['d'] [['c', 'h', 'u', 'n', 'k', 'o', 'n', 'e', '!', '!', '!']]
      [[1]] ['m', '1']).modelUrl ≠ ['m', '2'] := by simp
  exact ⟨by simp, hne, (h.1 hne).1, (h.1 hne).2.1, h2.2 rfl⟩

/-- One event of the completion stream (main.js lines 475–489): an optional
byte delta `piece` (modelled at character granularity) and an optional
cumulative string `currentText`. -/
structure StreamChunk where
  piece : Option (List Char)
  currentText : Option (List Char)

/-- The cumulative-string branch of the streaming loop: adopt `currentText`
only when it is present and strictly longer than the accumulator. -/
def snapshotStep (acc : List Char) (c : StreamChunk) : List Char :=
  match c.currentText with
  | some t => if acc.length < t.length then t else acc
  | none => acc

/-- One iteration of the streaming loop (main.js lines 475–482): a present,
nonempty `piece` is appended; otherwise the cumulative-string branch
applies. -/
def accumulateChunk (acc : List Char) (c : StreamChunk) : List Char :=
  match c.piece with
  | some p => if 0 < p.length then acc ++ p else snapshotStep acc c
  | none => snapshotStep acc c

/-- The parameters of a completion request relevant to the fallback rule. -/
structure CompletionRequest where
  stream : Bool
  nPredict : Nat
  temp : ℚ

/-- The initial streaming request of a chat turn (main.js lines 455–465). -/
def streamingRequest : CompletionRequest := ⟨true, 512, 2 / 10⟩

/-- The non-streaming fallback request (main.js lines 499–503). -/
def fallbackRequest : CompletionRequest := ⟨false, 128, 1 / 10⟩

/-- The generation phase of `runChatTurn` after retrieval (main.js lines
454–506), on a stream that completes with the given events: the text is
accumulated by the streaming loop, and if nothing was accumulated and the
turn was not aborted, a single non-streaming fallback request is issued and
its result (`fallbackText`) becomes the turn's output.  The request list
records every completion request issued during the turn, in order. -/
def runGeneration (chunks : List StreamChunk) (aborted : Bool) (fallbackText : List Char) :
    List Char × List CompletionRequest :=
  if (chunks.foldl accumulateChunk []).length = 0 ∧ aborted = false then
    (fallbackText, [streamingRequest, fallbackRequest])
  else (chunks.foldl accumulateChunk [], [streamingRequest])

/-- C9: when the stream finishes with zero accumulated output and the turn
was not cancelled, exactly one non-streaming request is issued — with
`nPredict = 128` and temperature `0.1` — and its result is the turn's
output; when output was accumulated or the turn was cancelled, no
non-streaming request is issued and the accumulated text is the output. -/
theorem claim9_fallback (chunks : List StreamChunk) (aborted : Bool) (fb : List Char) :
    ((chunks.foldl accumulateChunk []).length = 0 → aborted = false →
      (runGeneration chunks aborted fb).2.filter (fun r => !r.stream) = [fallbackRequest] ∧
      fallbackRequest.stream = false ∧ fallbackRequest.nPredict = 128 ∧
      fallbackRequest.temp = 1 / 10 ∧
      (runGeneration chunks aborted fb).1 = fb) ∧
    ((chunks.foldl accumulateChunk []).length ≠ 0 ∨ aborted = true →
      (runGeneration chunks aborted fb).2.filter (fun r => !r.stream) = [] ∧
      (runGeneration chunks aborted fb).1 = chunks.foldl accumulateChunk []) := by
  constructor
  · intro hz hab
    rw [runGeneration, if_pos ⟨hz, hab⟩]
    refine ⟨?_, rfl, rfl, rfl, rfl⟩
    simp [List.filter, streamingRequest, fallbackRequest]
  · intro hor
    have hneg : ¬ ((chunks.foldl accumulateChunk []).length = 0 ∧ aborted = false) := by
      rcases hor with h | h
      · exact fun hand => h hand.1
      · intro hand; rw [h] at hand; simp at hand
    rw [runGeneration, if_neg hneg]
    refine ⟨?_, rfl⟩
    simp [List.filter, streamingRequest]

/-- Witness for C9 on an empty (zero-yield) stream without cancellation. -/
theorem claim9_fallback_witness :
    (([] : List StreamChunk).foldl accumulateChunk []).length = 0 ∧
    (runGeneration [] false ['o', 'k']).2.filter (fun r => !r.stream) = [fallbackRequest] ∧
    (runGeneration [] false ['o', 'k']).1 = ['o', 'k'] := by
  have h := (claim9_fallback [] false ['o', 'k']).1 rfl rfl
  exact ⟨rfl, h.1, h.2.2.2.2⟩

end RagClient
